import Mathlib

/-!
Verification of the bulk-loaded rectangle spatial index (`flow/rtree`).

Only the unit-test file `src/flow/rtree_unittests.cc` of the repository is
available; the implementation (`rtree.h` / `rtree.cc`) is declared by the
specification but absent, so every definition below that embeds the index is
modelled from the specification text (sections 3, 4, 6, 7) and is marked
`Modelled from the spec:`.  Coordinates are modelled as exact rationals; the
specification describes the geometry exactly (strict inequalities, exact
min/max union boxes) and never appeals to rounding.
-/

namespace Flutter

/-- Modelled from the spec: the Rectangle of section 3, four coordinates
(left, top, right, bottom); the implementation (`rtree.h`) is missing. -/
structure Rect where
  left : ℚ
  top : ℚ
  right : ℚ
  bottom : ℚ
deriving DecidableEq

/-- Modelled from the spec: a rectangle is empty iff `right <= left` or
`bottom <= top` (section 3). -/
def isEmptyRect (r : Rect) : Bool :=
  decide (r.right ≤ r.left) || decide (r.bottom ≤ r.top)

/-- Modelled from the spec: the standard axis-aligned strict intersection
test of section 4.3, shared by the range query and the merge. -/
def intersects (a b : Rect) : Bool :=
  decide (max a.left b.left < min a.right b.right) &&
    decide (max a.top b.top < min a.bottom b.bottom)

/-- Modelled from the spec: the union bounding box of two rectangles
(`min(lefts), min(tops), max(rights), max(bottoms)`, sections 4.4 and 3). -/
def joinRect (a b : Rect) : Rect :=
  ⟨min a.left b.left, min a.top b.top, max a.right b.right, max a.bottom b.bottom⟩

/-- `covers s r` : the box `s` contains the box `r` componentwise. -/
def covers (s r : Rect) : Prop :=
  s.left ≤ r.left ∧ s.top ≤ r.top ∧ r.right ≤ s.right ∧ r.bottom ≤ s.bottom

/-- Modelled from the spec: a Record of section 3 — a bounding rectangle and
the is-a-drawing-operation flag; the `order` key is the position in the
record list. -/
structure Record where
  bounds : Rect
  is_drawn : Bool
deriving DecidableEq

/-- A hit: the `order` of a record together with its bounds. -/
abbrev Hit := Nat × Rect

/-- Number the records of a list consecutively starting at `k`. -/
def numbered : Nat → List Record → List (Nat × Record)
  | _, [] => []
  | k, r :: rs => (k, r) :: numbered (k + 1) rs

/-- Modelled from the spec: the Hit Set of section 3 for records numbered
from `k` — the drawn records whose bounds intersect the query, in `order`
order. -/
def hitsFrom (q : Rect) : Nat → List Record → List Hit
  | _, [] => []
  | k, r :: rs =>
      (if r.is_drawn && intersects q r.bounds then [(k, r.bounds)] else []) ++
        hitsFrom q (k + 1) rs

/-- The Hit Set of a record list for a query. -/
def hits (rs : List Record) (q : Rect) : List Hit := hitsFrom q 0 rs

/-- The leaf-level filter of the range query on an ordered record list. -/
def hitFilter (q : Rect) (xs : List (Nat × Record)) : List Hit :=
  xs.filterMap fun p =>
    if p.2.is_drawn && intersects q p.2.bounds then some (p.1, p.2.bounds) else none

/-- Modelled from the spec: a Hierarchy Node of section 3 — a leaf holding
one record, or an internal node holding children and a bounding rectangle. -/
inductive RNode where
  | leaf (order : Nat) (item : Record)
  | node (bounds : Rect) (l r : RNode)
deriving DecidableEq

/-- The bounding rectangle of a node. -/
def nbounds : RNode → Rect
  | .leaf _ it => it.bounds
  | .node b _ _ => b

/-- The descendant leaves of a node, in traversal order. -/
def leavesOf : RNode → List (Nat × Record)
  | .leaf o it => [(o, it)]
  | .node _ l r => leavesOf l ++ leavesOf r

/-- The bounds-union invariant of section 3: every internal node's bounds
equal the union of its children's bounds. -/
def allOk : RNode → Bool
  | .leaf _ _ => true
  | .node b l r =>
      decide (b = joinRect (nbounds l) (nbounds r)) && allOk l && allOk r

/-- Modelled from the spec: the bulk-load builder of section 4.2 — the
implementation is missing; the record sequence is split recursively into two
near-halves, each wrapped in an internal node whose bounds are the exact
union of its children's bounds. -/
def buildTree : Nat × Record → List (Nat × Record) → RNode
  | a, [] => .leaf a.1 a.2
  | a, b :: t =>
      match h : (b :: t).drop (t.length / 2) with
      | [] => .leaf a.1 a.2
      | c :: r =>
          let lt := buildTree a ((b :: t).take (t.length / 2))
          let rt := buildTree c r
          .node (joinRect (nbounds lt) (nbounds rt)) lt rt
termination_by _ l => l.length
decreasing_by
  · simp only [List.length_take, List.length_cons]
    omega
  · have hlen := congrArg List.length h
    simp only [List.length_drop, List.length_cons] at hlen
    simp only [List.length_cons]
    omega

/-- Modelled from the spec: the range query of section 4.3 — depth-first
traversal with bounding-rectangle pruning, emitting drawn intersecting
leaves; the builder keeps leaves in `order` order, so the traversal emits
the Hit Set already sorted by `order`. -/
def queryTree (q : Rect) : RNode → List Hit
  | .leaf o it =>
      if it.is_drawn && intersects q it.bounds then [(o, it.bounds)] else []
  | .node b l r =>
      if intersects q b then queryTree q l ++ queryTree q r else []

/-- Does any member of `cs` intersect the rectangle `b`? -/
def touches (cs : List Hit) (b : Rect) : Bool :=
  cs.any fun x => intersects x.2 b

/-- Modelled from the spec: one round-based component extraction of the
merge of section 4.4 — starting from the seed `s` and already-collected
members `c`, repeatedly move every remaining hit that intersects an original
member rectangle into the component (never testing against union boxes);
`f` rounds suffice when `f` is the size of the remainder. -/
def extract (s : Hit) : List Hit → List Hit → Nat → List Hit × List Hit
  | c, r, 0 => (c, r)
  | c, r, f + 1 =>
      let nw := r.filter fun y => touches (s :: c) y.2
      if nw.isEmpty then (c, r)
      else extract s (c ++ nw) (r.filter fun y => !(touches (s :: c) y.2)) f

theorem extract_snd_sublist (s : Hit) (f : Nat) :
    ∀ c r, (extract s c r f).2.Sublist r := by
  induction f with
  | zero => intro c r; exact List.Sublist.refl r
  | succ f ih =>
      intro c r
      rw [extract]
      by_cases hnw : (r.filter fun y => touches (s :: c) y.2).isEmpty
      · simp only [hnw, if_true]
        exact List.Sublist.refl r
      · simp only [hnw, if_false]
        exact (ih _ _).trans (List.filter_sublist r)

/-- Modelled from the spec: the connected components of the Hit Set under
pairwise overlap of the original record rectangles (section 4.4), each
component as its seed (the member of least `order`) and the remaining
members. -/
def mergeParts : List Hit → List (Hit × List Hit)
  | [] => []
  | h :: t =>
      (h, (extract h [] t t.length).1) :: mergeParts (extract h [] t t.length).2
termination_by l => l.length
decreasing_by
  simp only [List.length_cons]
  exact Nat.lt_succ_of_le (extract_snd_sublist h t.length [] t).length_le

/-- The union bounding box of a component. -/
def compBox (pc : Hit × List Hit) : Rect :=
  (pc.2.map Prod.snd).foldl joinRect pc.1.2

/-- Modelled from the spec: the Overlap Merge Engine of section 4.4 — one
union bounding box per connected component of the Hit Set, in order of the
least `order` of each component's members. -/
def mergeHits (hs : List Hit) : List Rect :=
  (mergeParts hs).map compBox

/-- Modelled from the spec: the index of section 6 — the finalized record
store and the hierarchy root (`none` for an empty or never-built index). -/
structure RTree where
  records : List Record
  root : Option RNode

/-- Modelled from the spec: the append of the builder protocol of
section 4.1, returning the new record list and the `order` of the appended
record. -/
def append (rs : List Record) (b : Rect) (d : Bool) : List Record × Nat :=
  (rs ++ [⟨b, d⟩], rs.length)

/-- Modelled from the spec: finalize fixes the record set and bulk-loads the
hierarchy (sections 4.2 and 6). -/
def finalize (rs : List Record) : RTree :=
  ⟨rs,
    match numbered 0 rs with
    | [] => none
    | a :: l => some (buildTree a l)⟩

/-- Modelled from the spec: an index handle that was never finalized/built
has no hierarchy (section 7: querying it returns an empty result). -/
def unbuiltIndex (rs : List Record) : RTree := ⟨rs, none⟩

/-- Modelled from the spec: the record count of section 6, all records
including non-drawing ones. -/
def getCount (t : RTree) : Nat := t.records.length

/-- Modelled from the spec: `recordCount`, the same count (section 6). -/
def recordCount (t : RTree) : Nat := getCount t

/-- Modelled from the spec: the externally consumed query of section 6 —
the range query of section 4.3 composed with the merge of section 4.4;
an absent hierarchy yields an empty result (section 7). -/
def searchNonOverlappingDrawnRects (t : RTree) (q : Rect) : List Rect :=
  match t.root with
  | none => []
  | some n => mergeHits (queryTree q n)

/-- Modelled from the spec: the query as a state transformer — section 5
specifies that queries perform no writes to the index, so the state is
returned unchanged next to the fresh result. -/
def searchSt (t : RTree) (q : Rect) : List Rect × RTree :=
  (searchNonOverlappingDrawnRects t q, t)

/-! ### Basic rectangle lemmas -/

theorem intersects_iff (a b : Rect) :
    intersects a b = true ↔
      max a.left b.left < min a.right b.right ∧
        max a.top b.top < min a.bottom b.bottom := by
  simp [intersects]

theorem intersects_comm (a b : Rect) : intersects a b = intersects b a := by
  simp only [intersects, max_comm a.left, min_comm a.right, max_comm a.top,
    min_comm a.bottom]

theorem intersects_empty_left (e x : Rect)
    (he : e.right ≤ e.left ∨ e.bottom ≤ e.top) : intersects e x = false := by
  rcases he with he | he
  · have h1 : min e.right x.right ≤ max e.left x.left :=
      le_trans (min_le_left _ _) (le_trans he (le_max_left _ _))
    simp [intersects, not_lt_of_le h1]
  · have h1 : min e.bottom x.bottom ≤ max e.top x.top :=
      le_trans (min_le_left _ _) (le_trans he (le_max_left _ _))
    simp [intersects, not_lt_of_le h1]

theorem intersects_empty_right (e x : Rect)
    (he : e.right ≤ e.left ∨ e.bottom ≤ e.top) : intersects x e = false := by
  rw [intersects_comm]; exact intersects_empty_left e x he

theorem covers_refl (r : Rect) : covers r r :=
  ⟨le_refl _, le_refl _, le_refl _, le_refl _⟩

theorem covers_trans {a b c : Rect} (h1 : covers a b) (h2 : covers b c) :
    covers a c :=
  ⟨le_trans h1.1 h2.1, le_trans h1.2.1 h2.2.1,
    le_trans h2.2.2.1 h1.2.2.1, le_trans h2.2.2.2 h1.2.2.2⟩

theorem covers_joinRect_left (a b : Rect) : covers (joinRect a b) a :=
  ⟨min_le_left _ _, min_le_left _ _, le_max_left _ _, le_max_left _ _⟩

theorem covers_joinRect_right (a b : Rect) : covers (joinRect a b) b :=
  ⟨min_le_right _ _, min_le_right _ _, le_max_right _ _, le_max_right _ _⟩

theorem joinRect_least {s a b : Rect} (ha : covers s a) (hb : covers s b) :
    covers s (joinRect a b) :=
  ⟨le_min ha.1 hb.1, le_min ha.2.1 hb.2.1, max_le ha.2.2.1 hb.2.2.1,
    max_le ha.2.2.2 hb.2.2.2⟩

/-- Pruning soundness: a query intersecting a covered rectangle intersects
the covering rectangle. -/
theorem intersects_of_covers {q r s : Rect} (hc : covers s r)
    (h : intersects q r = true) : intersects q s = true := by
  rw [intersects_iff] at h ⊢
  obtain ⟨hx, hy⟩ := h
  constructor
  · exact lt_of_le_of_lt (max_le_max (le_refl _) hc.1)
      (lt_of_lt_of_le hx (min_le_min (le_refl _) hc.2.2.1))
  · exact lt_of_le_of_lt (max_le_max (le_refl _) hc.2.1)
      (lt_of_lt_of_le hy (min_le_min (le_refl _) hc.2.2.2))

/-- The union box of a component covers the seed and every member, and is
the least rectangle doing so. -/
theorem compBox_covers_seed (s : Rect) (l : List Rect) :
    covers (l.foldl joinRect s) s := by
  induction l generalizing s with
  | nil => exact covers_refl s
  | cons x xs ih =>
      exact covers_trans (ih (joinRect s x)) (covers_joinRect_left s x)

theorem compBox_covers_mem (s : Rect) (l : List Rect) :
    ∀ x ∈ l, covers (l.foldl joinRect s) x := by
  induction l generalizing s with
  | nil => intro x hx; cases hx
  | cons y ys ih =>
      intro x hx
      rcases List.mem_cons.mp hx with rfl | hx
      · exact covers_trans (compBox_covers_seed (joinRect s x) ys)
          (covers_joinRect_right s x)
      · exact ih (joinRect s y) x hx

theorem compBox_least (s : Rect) (l : List Rect) (b : Rect)
    (hs : covers b s) (hl : ∀ x ∈ l, covers b x) :
    covers b (l.foldl joinRect s) := by
  induction l generalizing s with
  | nil => exact hs
  | cons y ys ih =>
      exact ih (joinRect s y) (joinRect_least hs (hl y (List.mem_cons_self y ys)))
        fun x hx => hl x (List.mem_cons_of_mem y hx)

/-! ### Builder lemmas -/

theorem buildTree_cons (a b : Nat × Record) (t : List (Nat × Record))
    (c : Nat × Record) (r : List (Nat × Record))
    (h : (b :: t).drop (t.length / 2) = c :: r) :
    buildTree a (b :: t) =
      .node
        (joinRect (nbounds (buildTree a ((b :: t).take (t.length / 2))))
          (nbounds (buildTree c r)))
        (buildTree a ((b :: t).take (t.length / 2))) (buildTree c r) := by
  rw [buildTree]
  split
  · next h0 => rw [h0] at h; cases h
  · next c' r' h0 =>
      rw [h0] at h
      injection h with h1 h2
      subst h1; subst h2
      rfl

theorem leavesOf_buildTree (a : Nat × Record) (l : List (Nat × Record)) :
    leavesOf (buildTree a l) = a :: l := by
  induction a, l using buildTree.induct with
  | case1 a => simp [buildTree, leavesOf]
  | case2 a b t h =>
      have hlen := congrArg List.length h
      simp only [List.length_drop, List.length_cons, List.length_nil] at hlen
      omega
  | case3 a b t c r h ih1 ih2 =>
      rw [buildTree_cons a b t c r h]
      simp only [leavesOf, ih1, ih2]
      rw [List.cons_append, ← h, List.take_append_drop]

theorem allOk_buildTree (a : Nat × Record) (l : List (Nat × Record)) :
    allOk (buildTree a l) = true := by
  induction a, l using buildTree.induct with
  | case1 a => simp [buildTree, allOk]
  | case2 a b t h =>
      have hlen := congrArg List.length h
      simp only [List.length_drop, List.length_cons, List.length_nil] at hlen
      omega
  | case3 a b t c r h ih1 ih2 =>
      rw [buildTree_cons a b t c r h]
      simp [allOk, ih1, ih2]

/-- Every leaf of a node satisfying the bounds-union invariant lies within
the node's bounds. -/
theorem covers_nbounds_of_mem_leaves (t : RNode) (hok : allOk t = true) :
    ∀ p ∈ leavesOf t, covers (nbounds t) p.2.bounds := by
  induction t with
  | leaf o it =>
      intro p hp
      rcases List.mem_singleton.mp hp with rfl
      exact covers_refl _
  | node b l r ihl ihr =>
      simp only [allOk, Bool.and_eq_true, decide_eq_true_eq] at hok
      obtain ⟨⟨hb, hl⟩, hr⟩ := hok
      intro p hp
      rcases List.mem_append.mp hp with hp | hp
      · exact covers_trans (hb ▸ covers_joinRect_left _ _) (ihl hl p hp)
      · exact covers_trans (hb ▸ covers_joinRect_right _ _) (ihr hr p hp)

/-! ### Component-extraction lemmas -/

theorem extract_perm (s : Hit) (f : Nat) :
    ∀ c r, ((extract s c r f).1 ++ (extract s c r f).2).Perm (c ++ r) := by
  induction f with
  | zero => intro c r; exact List.Perm.refl _
  | succ f ih =>
      intro c r
      rw [extract]
      by_cases hnw : (r.filter fun y => touches (s :: c) y.2).isEmpty
      · rw [if_pos hnw]
      · rw [if_neg hnw]
        refine (ih _ _).trans ?_
        rw [List.append_assoc]
        exact List.Perm.append_left c (List.filter_append_perm _ r)

theorem extract_fst_from (s : Hit) (f : Nat) :
    ∀ c r, ∃ add, (extract s c r f).1 = c ++ add ∧ ∀ x ∈ add, x ∈ r := by
  induction f with
  | zero =>
      intro c r
      refine ⟨[], ?_, fun x hx => absurd hx (List.not_mem_nil x)⟩
      rw [extract, List.append_nil]
  | succ f ih =>
      intro c r
      rw [extract]
      by_cases hnw : (r.filter fun y => touches (s :: c) y.2).isEmpty
      · rw [if_pos hnw]
        exact ⟨[], by rw [List.append_nil], fun x hx => absurd hx (List.not_mem_nil x)⟩
      · rw [if_neg hnw]
        obtain ⟨add, heq, hmem⟩ := ih (c ++ (r.filter fun y => touches (s :: c) y.2))
          (r.filter fun y => !(touches (s :: c) y.2))
        refine ⟨(r.filter fun y => touches (s :: c) y.2) ++ add, ?_, ?_⟩
        · rw [heq, List.append_assoc]
        · intro x hx
          rcases List.mem_append.mp hx with hx | hx
          · exact List.mem_of_mem_filter hx
          · exact List.mem_of_mem_filter (hmem x hx)

theorem extract_sep (s : Hit) (f : Nat) :
    ∀ c r, r.length ≤ f →
      ∀ y ∈ (extract s c r f).2, touches (s :: (extract s c r f).1) y.2 = false := by
  induction f with
  | zero =>
      intro c r hr y hy
      rw [List.length_eq_zero.mp (Nat.le_zero.mp hr)] at hy
      cases hy
  | succ f ih =>
      intro c r hr
      rw [extract]
      by_cases hnw : (r.filter fun y => touches (s :: c) y.2).isEmpty
      · rw [if_pos hnw]
        intro y hy
        have hall := List.filter_eq_nil_iff.mp (List.isEmpty_iff.mp hnw)
        exact Bool.eq_false_iff.mpr fun ht => hall y hy ht
      · rw [if_neg hnw]
        have hlen := (List.filter_append_perm (fun y => touches (s :: c) y.2) r).length_eq
        rw [List.length_append] at hlen
        have hpos : 0 < (r.filter fun y => touches (s :: c) y.2).length := by
          cases hfe : (r.filter fun y => touches (s :: c) y.2) with
          | nil => rw [hfe] at hnw; exact absurd rfl hnw
          | cons z zs => exact Nat.succ_pos _
        exact ih _ _ (by omega)

/-- Reachability inside a member list `P` by chains of pairwise overlap of
the original rectangles. -/
def linksTo (P : List Hit) (x y : Hit) : Prop :=
  Relation.ReflTransGen (fun u v => u ∈ P ∧ v ∈ P ∧ intersects u.2 v.2 = true) x y

theorem linksTo_mono {P P' : List Hit} (hsub : ∀ z, z ∈ P → z ∈ P') {x y : Hit}
    (h : linksTo P x y) : linksTo P' x y :=
  Relation.ReflTransGen.mono (fun u v hw => ⟨hsub u hw.1, hsub v hw.2.1, hw.2.2⟩) h

theorem extract_linked (s : Hit) (f : Nat) :
    ∀ c r, (∀ x ∈ c, linksTo (s :: c) s x) →
      ∀ x ∈ (extract s c r f).1, linksTo (s :: (extract s c r f).1) s x := by
  induction f with
  | zero => intro c r hinv x hx; exact hinv x hx
  | succ f ih =>
      intro c r hinv
      rw [extract]
      by_cases hnw : (r.filter fun y => touches (s :: c) y.2).isEmpty
      · simp only [hnw, if_true]; exact hinv
      · simp only [hnw, if_false]
        refine ih _ _ ?_
        intro x hx
        have hsub : ∀ z, z ∈ s :: c →
            z ∈ s :: (c ++ r.filter fun y => touches (s :: c) y.2) := by
          intro z hz
          rcases List.mem_cons.mp hz with rfl | hz
          · exact List.mem_cons_self _ _
          · exact List.mem_cons_of_mem _ (List.mem_append.mpr (Or.inl hz))
        rcases List.mem_append.mp hx with hx | hx
        · exact linksTo_mono hsub (hinv x hx)
        · have htch : touches (s :: c) x.2 = true := (List.mem_filter.mp hx).2
          obtain ⟨u, hu, hint⟩ := List.any_eq_true.mp htch
          have hpath : linksTo (s :: c) s u := by
            rcases List.mem_cons.mp hu with rfl | hu
            · exact Relation.ReflTransGen.refl
            · exact hinv u hu
          refine Relation.ReflTransGen.tail (linksTo_mono hsub hpath) ?_
          exact ⟨hsub u hu,
            List.mem_cons_of_mem _ (List.mem_append.mpr (Or.inr hx)), hint⟩

theorem extract_fst_mem (s : Hit) (r : List Hit) (f : Nat) :
    ∀ x ∈ (extract s [] r f).1, x ∈ r := by
  obtain ⟨add, heq, hmem⟩ := extract_fst_from s f [] r
  rw [heq, List.nil_append]
  exact hmem

/-! ### Lemmas on the component decomposition of a hit set -/

/-- All members of all components, seeds first. -/
def flatParts (ps : List (Hit × List Hit)) : List Hit :=
  (ps.map fun pc => pc.1 :: pc.2).flatten

theorem mergeParts_mem (hs : List Hit) :
    ∀ pc ∈ mergeParts hs, ∀ x ∈ pc.1 :: pc.2, x ∈ hs := by
  induction hs using mergeParts.induct with
  | case1 => rw [mergeParts]; intro pc hpc; cases hpc
  | case2 h t ih =>
      rw [mergeParts]
      intro pc hpc x hx
      rcases List.mem_cons.mp hpc with rfl | hpc
      · rcases List.mem_cons.mp hx with rfl | hx
        · exact List.mem_cons_self _ _
        · exact List.mem_cons_of_mem _ (extract_fst_mem h t t.length x hx)
      · exact List.mem_cons_of_mem _
          ((extract_snd_sublist h t.length [] t).subset (ih pc hpc x hx))

theorem mergeParts_flat_perm (hs : List Hit) :
    (flatParts (mergeParts hs)).Perm hs := by
  induction hs using mergeParts.induct with
  | case1 => rw [mergeParts]; exact List.Perm.refl _
  | case2 h t ih =>
      rw [mergeParts]
      simp only [flatParts, List.map_cons, List.flatten_cons] at ih ⊢
      rw [List.cons_append]
      refine List.Perm.cons h ?_
      refine ((List.Perm.append_left _ ih).trans ?_)
      have hp := extract_perm h t.length [] t
      rw [List.nil_append] at hp
      exact hp

theorem mergeParts_linked (hs : List Hit) :
    ∀ pc ∈ mergeParts hs, ∀ x ∈ pc.1 :: pc.2, linksTo (pc.1 :: pc.2) pc.1 x := by
  induction hs using mergeParts.induct with
  | case1 => rw [mergeParts]; intro pc hpc; cases hpc
  | case2 h t ih =>
      rw [mergeParts]
      intro pc hpc x hx
      rcases List.mem_cons.mp hpc with rfl | hpc
      · rcases List.mem_cons.mp hx with rfl | hx
        · exact Relation.ReflTransGen.refl
        · exact extract_linked h t.length [] t (fun z hz => absurd hz (List.not_mem_nil z))
            x hx
      · exact ih pc hpc x hx

theorem mergeParts_sep (hs : List Hit) :
    List.Pairwise
      (fun pc pc' : Hit × List Hit =>
        ∀ x ∈ pc.1 :: pc.2, ∀ y ∈ pc'.1 :: pc'.2, intersects x.2 y.2 = false)
      (mergeParts hs) := by
  induction hs using mergeParts.induct with
  | case1 => rw [mergeParts]; exact List.Pairwise.nil
  | case2 h t ih =>
      rw [mergeParts]
      refine List.Pairwise.cons ?_ ih
      intro pc' hpc' x hx y hy
      have hyrest : y ∈ (extract h [] t t.length).2 := mergeParts_mem _ pc' hpc' y hy
      have hsep := extract_sep h t.length [] t (le_refl _) y hyrest
      have hall := List.any_eq_false.mp hsep
      exact Bool.eq_false_iff.mpr (hall x hx)

theorem mergeParts_seed_min (hs : List Hit)
    (hsort : List.Pairwise (fun u v : Hit => u.1 < v.1) hs) :
    ∀ pc ∈ mergeParts hs, ∀ x ∈ pc.2, pc.1.1 < x.1 := by
  induction hs using mergeParts.induct with
  | case1 => rw [mergeParts]; intro pc hpc; cases hpc
  | case2 h t ih =>
      rw [mergeParts]
      rcases hsort with _ | ⟨hh, ht⟩
      intro pc hpc x hx
      rcases List.mem_cons.mp hpc with rfl | hpc
      · exact hh x (extract_fst_mem h t t.length x hx)
      · exact ih (ht.sublist (extract_snd_sublist h t.length [] t)) pc hpc x hx

theorem mergeParts_seeds_sorted (hs : List Hit)
    (hsort : List.Pairwise (fun u v : Hit => u.1 < v.1) hs) :
    List.Pairwise (fun pc pc' : Hit × List Hit => pc.1.1 < pc'.1.1)
      (mergeParts hs) := by
  induction hs using mergeParts.induct with
  | case1 => rw [mergeParts]; exact List.Pairwise.nil
  | case2 h t ih =>
      rw [mergeParts]
      rcases hsort with _ | ⟨hh, ht⟩
      refine List.Pairwise.cons ?_
        (ih (ht.sublist (extract_snd_sublist h t.length [] t)))
      intro pc' hpc'
      exact hh pc'.1
        ((extract_snd_sublist h t.length [] t).subset
          (mergeParts_mem _ pc' hpc' pc'.1 (List.mem_cons_self _ _)))

theorem hitFilter_append (q : Rect) (xs ys : List (Nat × Record)) :
    hitFilter q (xs ++ ys) = hitFilter q xs ++ hitFilter q ys :=
  List.filterMap_append xs ys _

/-- The range query over a hierarchy satisfying the bounds-union invariant
equals the plain leaf filter: pruning loses no hit. -/
theorem queryTree_eq_hitFilter (q : Rect) (t : RNode) (hok : allOk t = true) :
    queryTree q t = hitFilter q (leavesOf t) := by
  induction t with
  | leaf o it =>
      simp only [queryTree, leavesOf, hitFilter, List.filterMap]
      by_cases hc : it.is_drawn && intersects q it.bounds <;> simp [hc]
  | node b l r ihl ihr =>
      simp only [allOk, Bool.and_eq_true, decide_eq_true_eq] at hok
      obtain ⟨⟨hb, hl⟩, hr⟩ := hok
      by_cases hq : intersects q b = true
      · simp only [queryTree, hq, if_true, leavesOf, hitFilter_append]
        rw [ihl hl, ihr hr]
      · have hleaf : ∀ p ∈ leavesOf l ++ leavesOf r,
            intersects q p.2.bounds = false := by
          intro p hp
          have hcov : covers b p.2.bounds := by
            rcases List.mem_append.mp hp with hp | hp
            · exact covers_trans (hb ▸ covers_joinRect_left _ _)
                (covers_nbounds_of_mem_leaves l hl p hp)
            · exact covers_trans (hb ▸ covers_joinRect_right _ _)
                (covers_nbounds_of_mem_leaves r hr p hp)
          cases hI : intersects q p.2.bounds with
          | false => rfl
          | true => exact absurd (intersects_of_covers hcov hI) hq
        have h1 : hitFilter q (leavesOf l) = [] := by
          simp only [hitFilter]
          refine List.filterMap_eq_nil_iff.mpr fun p hp => ?_
          simp [hleaf p (List.mem_append.mpr (Or.inl hp))]
        have h2 : hitFilter q (leavesOf r) = [] := by
          simp only [hitFilter]
          refine List.filterMap_eq_nil_iff.mpr fun p hp => ?_
          simp [hleaf p (List.mem_append.mpr (Or.inr hp))]
        simp only [queryTree, hq, if_false, leavesOf, hitFilter_append, h1, h2,
          List.append_nil, Bool.false_eq_true]

/-! ### Hit-set lemmas and the query bridge -/

theorem hitsFrom_append (q : Rect) (xs : List Record) :
    ∀ (k : Nat) (ys : List Record),
      hitsFrom q k (xs ++ ys) = hitsFrom q k xs ++ hitsFrom q (k + xs.length) ys := by
  induction xs with
  | nil => intro k ys; simp [hitsFrom]
  | cons x xs ih =>
      intro k ys
      simp only [List.cons_append, hitsFrom, List.length_cons, List.append_eq]
      rw [ih (k + 1) ys, List.append_assoc]
      have harith : k + 1 + xs.length = k + (xs.length + 1) := by omega
      rw [harith]

theorem hitsFrom_fst_bounds (q : Rect) (rs : List Record) :
    ∀ k, ∀ x ∈ hitsFrom q k rs, k ≤ x.1 ∧ x.1 < k + rs.length := by
  induction rs with
  | nil => intro k x hx; cases hx
  | cons r rs ih =>
      intro k x hx
      simp only [hitsFrom] at hx
      rcases List.mem_append.mp hx with hx | hx
      · by_cases hc : r.is_drawn && intersects q r.bounds
        · rw [if_pos hc] at hx
          rcases List.mem_singleton.mp hx with rfl
          simp only [List.length_cons]
          omega
        · rw [if_neg hc] at hx; cases hx
      · have := ih (k + 1) x hx
        simp only [List.length_cons]
        omega

theorem hitsFrom_sorted (q : Rect) (rs : List Record) :
    ∀ k, List.Pairwise (fun u v : Hit => u.1 < v.1) (hitsFrom q k rs) := by
  induction rs with
  | nil => intro k; exact List.Pairwise.nil
  | cons r rs ih =>
      intro k
      simp only [hitsFrom]
      by_cases hc : r.is_drawn && intersects q r.bounds
      · rw [if_pos hc, List.singleton_append]
        refine List.Pairwise.cons ?_ (ih (k + 1))
        intro v hv
        have := (hitsFrom_fst_bounds q rs (k + 1) v hv).1
        omega
      · rw [if_neg hc, List.nil_append]
        exact ih (k + 1)

theorem hitsFrom_mem_intersects (q : Rect) (rs : List Record) :
    ∀ k, ∀ x ∈ hitsFrom q k rs, intersects q x.2 = true := by
  induction rs with
  | nil => intro k x hx; cases hx
  | cons r rs ih =>
      intro k x hx
      simp only [hitsFrom] at hx
      rcases List.mem_append.mp hx with hx | hx
      · by_cases hc : r.is_drawn && intersects q r.bounds
        · rw [if_pos hc] at hx
          rcases List.mem_singleton.mp hx with rfl
          exact (Bool.and_eq_true _ _).mp hc |>.2
        · rw [if_neg hc] at hx; cases hx
      · exact ih (k + 1) x hx

theorem hitFilter_numbered (q : Rect) (rs : List Record) :
    ∀ k, hitFilter q (numbered k rs) = hitsFrom q k rs := by
  induction rs with
  | nil => intro k; rfl
  | cons r rs ih =>
      intro k
      simp only [numbered, hitFilter, List.filterMap_cons, hitsFrom]
      by_cases hc : r.is_drawn && intersects q r.bounds
      · rw [if_pos hc, if_pos hc]
        rw [← ih k.succ]
        rfl
      · rw [if_neg hc, if_neg hc]
        rw [← ih k.succ]
        rfl

/-- The externally consumed query equals the merge of the Hit Set: the
hierarchy traversal is a pure optimization. -/
theorem search_eq_mergeHits (rs : List Record) (q : Rect) :
    searchNonOverlappingDrawnRects (finalize rs) q = mergeHits (hits rs q) := by
  cases rs with
  | nil =>
      rw [hits, hitsFrom, mergeHits, mergeParts]
      rfl
  | cons r rs =>
      have hq : searchNonOverlappingDrawnRects (finalize (r :: rs)) q =
          mergeHits (queryTree q (buildTree (0, r) (numbered 1 rs))) := rfl
      rw [hq, queryTree_eq_hitFilter q _ (allOk_buildTree _ _), leavesOf_buildTree]
      have h2 : (0, r) :: numbered 1 rs = numbered 0 (r :: rs) := rfl
      rw [h2, hitFilter_numbered, hits]

/-! ### The merge depends only on the rectangles of the hit list -/

/-- Two hit lists with the same rectangles in the same positions (only the
`order` decorations differ). -/
def sndEq (a b : List Hit) : Prop := a.map Prod.snd = b.map Prod.snd

theorem sndEq_cons {x y : Hit} {a b : List Hit} :
    sndEq (x :: a) (y :: b) ↔ x.2 = y.2 ∧ sndEq a b := by
  simp [sndEq]

theorem sndEq_length {a b : List Hit} (h : sndEq a b) : a.length = b.length := by
  have := congrArg List.length h
  simpa using this

theorem touches_congr {cs cs' : List Hit} (h : sndEq cs cs') (b : Rect) :
    touches cs b = touches cs' b := by
  induction cs generalizing cs' with
  | nil =>
      cases cs' with
      | nil => rfl
      | cons y ys => exact absurd (sndEq_length h) (by simp)
  | cons x xs ih =>
      cases cs' with
      | nil => exact absurd (sndEq_length h) (by simp)
      | cons y ys =>
          obtain ⟨h1, h2⟩ := sndEq_cons.mp h
          simp only [touches, List.any_cons] at ih ⊢
          rw [h1, ih h2]

theorem filter_snd_congr (p p' : Hit → Bool)
    (hpp : ∀ x y : Hit, x.2 = y.2 → p x = p' y) :
    ∀ a b, sndEq a b → sndEq (a.filter p) (b.filter p') := by
  intro a
  induction a with
  | nil =>
      intro b hab
      cases b with
      | nil => rfl
      | cons y ys => exact absurd (sndEq_length hab) (by simp)
  | cons x xs ih =>
      intro b hab
      cases b with
      | nil => exact absurd (sndEq_length hab) (by simp)
      | cons y ys =>
          obtain ⟨h1, h2⟩ := sndEq_cons.mp hab
          simp only [List.filter_cons]
          rw [← hpp x y h1]
          by_cases hx : p x
          · rw [if_pos hx, if_pos hx]
            exact sndEq_cons.mpr ⟨h1, ih ys h2⟩
          · rw [if_neg hx, if_neg hx]
            exact ih ys h2

theorem sndEq_append {a b c d : List Hit} (h1 : sndEq a c) (h2 : sndEq b d) :
    sndEq (a ++ b) (c ++ d) := by
  simp only [sndEq, List.map_append] at h1 h2 ⊢
  rw [h1, h2]

theorem extract_sndEq (f : Nat) :
    ∀ (s s' : Hit) (c c' r r' : List Hit), s.2 = s'.2 → sndEq c c' → sndEq r r' →
      sndEq (extract s c r f).1 (extract s' c' r' f).1 ∧
        sndEq (extract s c r f).2 (extract s' c' r' f).2 := by
  induction f with
  | zero => intro s s' c c' r r' hs hc hr; exact ⟨hc, hr⟩
  | succ f ih =>
      intro s s' c c' r r' hs hc hr
      have hcs : sndEq (s :: c) (s' :: c') := sndEq_cons.mpr ⟨hs, hc⟩
      have hg : ∀ b, touches (s :: c) b = touches (s' :: c') b :=
        touches_congr hcs
      have hnweq : sndEq (r.filter fun y => touches (s :: c) y.2)
          (r'.filter fun y => touches (s' :: c') y.2) :=
        filter_snd_congr _ _ (fun x y hxy => by rw [hxy, hg y.2]) r r' hr
      have hrem : sndEq (r.filter fun y => !(touches (s :: c) y.2))
          (r'.filter fun y => !(touches (s' :: c') y.2)) :=
        filter_snd_congr _ _ (fun x y hxy => by rw [hxy, hg y.2]) r r' hr
      rw [extract, extract]
      by_cases hnw : (r.filter fun y => touches (s :: c) y.2).isEmpty
      · have hnw' : (r'.filter fun y => touches (s' :: c') y.2).isEmpty := by
          rw [List.isEmpty_iff_length_eq_zero] at hnw ⊢
          rw [← sndEq_length hnweq]
          exact hnw
        rw [if_pos hnw, if_pos hnw']
        exact ⟨hc, hr⟩
      · have hnw' : ¬(r'.filter fun y => touches (s' :: c') y.2).isEmpty := by
          rw [List.isEmpty_iff_length_eq_zero] at hnw ⊢
          rw [← sndEq_length hnweq]
          exact hnw
        rw [if_neg hnw, if_neg hnw']
        exact ih s s' _ _ _ _ hs (sndEq_append hc hnweq) hrem

theorem mergeParts_sndEq :
    ∀ (n : Nat) (a b : List Hit), a.length ≤ n → sndEq a b →
      List.Forall₂ (fun pc pc' : Hit × List Hit =>
        pc.1.2 = pc'.1.2 ∧ sndEq pc.2 pc'.2) (mergeParts a) (mergeParts b) := by
  intro n
  induction n with
  | zero =>
      intro a b ha hab
      rw [List.length_eq_zero.mp (Nat.le_zero.mp ha)] at hab ⊢
      cases b with
      | nil => rw [mergeParts]; exact List.Forall₂.nil
      | cons y ys => exact absurd (sndEq_length hab) (by simp)
  | succ n ih =>
      intro a b ha hab
      cases a with
      | nil =>
          cases b with
          | nil => rw [mergeParts]; exact List.Forall₂.nil
          | cons y ys => exact absurd (sndEq_length hab) (by simp)
      | cons x xs =>
          cases b with
          | nil => exact absurd (sndEq_length hab) (by simp)
          | cons y ys =>
              obtain ⟨h1, h2⟩ := sndEq_cons.mp hab
              rw [mergeParts, mergeParts]
              have hflen : ys.length = xs.length := (sndEq_length h2).symm
              have hex := extract_sndEq xs.length x y [] [] xs ys h1 rfl h2
              rw [hflen]
              refine List.Forall₂.cons ⟨h1, hex.1⟩ ?_
              refine ih _ _ ?_ hex.2
              have hle := (extract_snd_sublist x xs.length [] xs).length_le
              simp only [List.length_cons] at ha
              omega

theorem mergeHits_sndEq {a b : List Hit} (hab : sndEq a b) :
    mergeHits a = mergeHits b := by
  have hf := mergeParts_sndEq a.length a b (le_refl _) hab
  rw [mergeHits, mergeHits]
  revert hf
  generalize mergeParts a = pa
  generalize mergeParts b = pb
  intro hf
  induction hf with
  | nil => rfl
  | @cons pc pc' ta tb hpc htail ih =>
      have hsnd : pc.2.map Prod.snd = pc'.2.map Prod.snd := hpc.2
      simp only [List.map_cons, ih]
      have hbox : compBox pc = compBox pc' := by
        rw [compBox, compBox, hpc.1, hsnd]
      rw [hbox]


/-! ### Small corollaries used by the claim theorems -/

theorem isEmptyRect_iff (r : Rect) :
    isEmptyRect r = true ↔ (r.right ≤ r.left ∨ r.bottom ≤ r.top) := by
  simp [isEmptyRect]

theorem mergeHits_single (x : Hit) : mergeHits [x] = [x.2] := by
  rw [mergeHits, mergeParts]
  have hext : extract x [] ([] : List Hit) (List.length ([] : List Hit)) =
      ([], []) := rfl
  rw [hext, mergeParts]
  rfl

theorem nbounds_least (t : RNode) (hok : allOk t = true) (s : Rect)
    (hs : ∀ p ∈ leavesOf t, covers s p.2.bounds) : covers s (nbounds t) := by
  induction t with
  | leaf o it => exact hs (o, it) (List.mem_singleton.mpr rfl)
  | node b l r ihl ihr =>
      simp only [allOk, Bool.and_eq_true, decide_eq_true_eq] at hok
      obtain ⟨⟨hb, hl⟩, hr⟩ := hok
      rw [nbounds, hb]
      exact joinRect_least
        (ihl hl fun p hp => hs p (List.mem_append.mpr (Or.inl hp)))
        (ihr hr fun p hp => hs p (List.mem_append.mpr (Or.inr hp)))

theorem hitsFrom_map_snd (q : Rect) (rs : List Record) :
    ∀ k k', (hitsFrom q k rs).map Prod.snd = (hitsFrom q k' rs).map Prod.snd := by
  induction rs with
  | nil => intro k k'; rfl
  | cons r rs ih =>
      intro k k'
      simp only [hitsFrom, List.map_append]
      rw [ih (k + 1) (k' + 1)]
      by_cases hc : r.is_drawn && intersects q r.bounds
      · rw [if_pos hc, if_pos hc]; rfl
      · rw [if_neg hc, if_neg hc]

/-! ### The claims -/

/-- C2: the intersection test used by the range query and the merge is the
strict axis-aligned one, and a single drawn record whose bounds share only a
boundary edge or corner with the query yields an empty result. -/
theorem C2_strict_intersection (R q : Rect)
    (h : q.right = R.left ∨ R.right = q.left ∨ q.bottom = R.top ∨ R.bottom = q.top) :
    (∀ a b : Rect, intersects a b = true ↔
      (max a.left b.left < min a.right b.right ∧
        max a.top b.top < min a.bottom b.bottom)) ∧
    searchNonOverlappingDrawnRects (finalize [⟨R, true⟩]) q = [] := by
  refine ⟨intersects_iff, ?_⟩
  have hint : intersects q R = false := by
    rcases h with h | h | h | h
    · have h1 : min q.right R.right ≤ max q.left R.left :=
        le_trans (min_le_left _ _) (le_trans (le_of_eq h) (le_max_right _ _))
      simp [intersects, not_lt_of_le h1]
    · have h1 : min q.right R.right ≤ max q.left R.left :=
        le_trans (min_le_right _ _) (le_trans (le_of_eq h) (le_max_left _ _))
      simp [intersects, not_lt_of_le h1]
    · have h1 : min q.bottom R.bottom ≤ max q.top R.top :=
        le_trans (min_le_left _ _) (le_trans (le_of_eq h) (le_max_right _ _))
      simp [intersects, not_lt_of_le h1]
    · have h1 : min q.bottom R.bottom ≤ max q.top R.top :=
        le_trans (min_le_right _ _) (le_trans (le_of_eq h) (le_max_left _ _))
      simp [intersects, not_lt_of_le h1]
  rw [search_eq_mergeHits]
  have hh : hits [⟨R, true⟩] q = [] := by
    simp [hits, hitsFrom, hint]
  rw [hh, mergeHits, mergeParts]
  rfl

/-- Witness for C2 on the NoIntersection unit-test data: record bounds
(20, 20, 40, 40), query (40, 40, 80, 80) sharing only the corner (40, 40). -/
theorem C2_strict_intersection_witness :
    (∀ a b : Rect, intersects a b = true ↔
      (max a.left b.left < min a.right b.right ∧
        max a.top b.top < min a.bottom b.bottom)) ∧
    searchNonOverlappingDrawnRects
      (finalize [⟨⟨20, 20, 40, 40⟩, true⟩]) ⟨40, 40, 80, 80⟩ = [] :=
  C2_strict_intersection ⟨20, 20, 40, 40⟩ ⟨40, 40, 80, 80⟩ (Or.inr (Or.inl rfl))

/-- C4: appending a non-drawing record increases the record count by one and
never changes the query output, even when its bounds intersect the query. -/
theorem C4_nondrawn_append (rs : List Record) (b : Rect) (q : Rect) :
    recordCount (finalize (append rs b false).1) = recordCount (finalize rs) + 1 ∧
    getCount (finalize (append rs b false).1) = getCount (finalize rs) + 1 ∧
    searchNonOverlappingDrawnRects (finalize (append rs b false).1) q =
      searchNonOverlappingDrawnRects (finalize rs) q := by
  have hcount : ∀ l : List Record, getCount (finalize l) = l.length := fun l => rfl
  refine ⟨?_, ?_, ?_⟩
  · rw [recordCount, recordCount, hcount, hcount, append]
    simp
  · rw [hcount, hcount, append]
    simp
  · rw [search_eq_mergeHits, search_eq_mergeHits]
    have hh : hits (append rs b false).1 q = hits rs q := by
      rw [append, hits, hits, hitsFrom_append]
      simp [hitsFrom]
    rw [hh]

/-- C7: querying a built index twice with the same rectangle returns
identical results, and the index state is unchanged by the query. -/
theorem C7_query_idempotent (rs : List Record) (q : Rect) :
    (searchSt (finalize rs) q).1 = (searchSt (searchSt (finalize rs) q).2 q).1 ∧
    (searchSt (searchSt (finalize rs) q).2 q).2 = finalize rs :=
  ⟨rfl, rfl⟩

/-- C8: querying an index that was never finalized/built returns an empty
result, exactly as the zero-record case does, with no failure. -/
theorem C8_unbuilt_query_empty (rs : List Record) (q : Rect) :
    searchNonOverlappingDrawnRects (unbuiltIndex rs) q = [] ∧
    searchNonOverlappingDrawnRects (finalize []) q = [] :=
  ⟨rfl, rfl⟩

/-- C10: output rectangles are full recorded bounds, never clipped to the
query rectangle or to a clip record: a query intersecting a single drawn
record (in particular one strictly inside it) returns the record's whole
bounds, and a preceding non-drawing clip record does not shrink it. -/
theorem C10_unclipped (R q c : Rect) (h : intersects q R = true) :
    searchNonOverlappingDrawnRects (finalize [⟨R, true⟩]) q = [R] ∧
    searchNonOverlappingDrawnRects (finalize [⟨c, false⟩, ⟨R, true⟩]) q = [R] := by
  constructor
  · rw [search_eq_mergeHits]
    have hh : hits [⟨R, true⟩] q = [(0, R)] := by
      simp [hits, hitsFrom, h]
    rw [hh]
    exact mergeHits_single (0, R)
  · rw [search_eq_mergeHits]
    have hh : hits [⟨c, false⟩, ⟨R, true⟩] q = [(1, R)] := by
      simp [hits, hitsFrom, h]
    rw [hh]
    exact mergeHits_single (1, R)

/-- Witness for C10 on the SingleRectIntersection unit-test data: query
(140, 140, 150, 150) strictly inside the record (120, 120, 160, 160), with
the clip rectangle (40, 40, 50, 50) of the IgnoresNonDrawingRecords test. -/
theorem C10_unclipped_witness :
    searchNonOverlappingDrawnRects
        (finalize [⟨⟨120, 120, 160, 160⟩, true⟩]) ⟨140, 140, 150, 150⟩ =
      [⟨120, 120, 160, 160⟩] ∧
    searchNonOverlappingDrawnRects
        (finalize [⟨⟨40, 40, 50, 50⟩, false⟩, ⟨⟨120, 120, 160, 160⟩, true⟩])
        ⟨140, 140, 150, 150⟩ = [⟨120, 120, 160, 160⟩] :=
  C10_unclipped ⟨120, 120, 160, 160⟩ ⟨140, 140, 150, 150⟩ ⟨40, 40, 50, 50⟩
    (by decide)

theorem buildTree_nil (a : Nat × Record) : buildTree a [] = .leaf a.1 a.2 := by
  rw [buildTree]

/-- C3: a record with empty bounds never intersects anything, is never
emitted by the range query, and its presence anywhere in the record set
never changes the output of the search for any query rectangle. -/
theorem C3_empty_rect_inert (l1 l2 : List Record) (e : Record) (q : Rect)
    (he : isEmptyRect e.bounds = true) :
    (∀ x : Rect, intersects e.bounds x = false ∧ intersects x e.bounds = false) ∧
    (∀ x ∈ hits (l1 ++ e :: l2) q, x.1 ≠ l1.length) ∧
    searchNonOverlappingDrawnRects (finalize (l1 ++ e :: l2)) q =
      searchNonOverlappingDrawnRects (finalize (l1 ++ l2)) q := by
  have he' := (isEmptyRect_iff e.bounds).mp he
  have hqe : intersects q e.bounds = false := intersects_empty_right _ _ he'
  have hdec : hits (l1 ++ e :: l2) q =
      hitsFrom q 0 l1 ++ hitsFrom q (l1.length + 1) l2 := by
    rw [hits, hitsFrom_append, Nat.zero_add]
    congr 1
    simp [hitsFrom, hqe]
  have hdec2 : hits (l1 ++ l2) q =
      hitsFrom q 0 l1 ++ hitsFrom q l1.length l2 := by
    rw [hits, hitsFrom_append, Nat.zero_add]
  refine ⟨?_, ?_, ?_⟩
  · exact fun x => ⟨intersects_empty_left _ _ he', intersects_empty_right _ _ he'⟩
  · intro x hx
    rw [hdec] at hx
    rcases List.mem_append.mp hx with hx | hx
    · have := (hitsFrom_fst_bounds q l1 0 x hx).2
      omega
    · have := (hitsFrom_fst_bounds q l2 (l1.length + 1) x hx).1
      omega
  · rw [search_eq_mergeHits, search_eq_mergeHits, hdec, hdec2]
    exact mergeHits_sndEq (sndEq_append rfl (hitsFrom_map_snd q l2 _ _))

/-- Witness for C3: a zero-area record (280, 100, 280, 320) (record E of the
JoinRectsWhenIntersectedCase3 unit test) between two drawn records. -/
theorem C3_empty_rect_inert_witness :
    (∀ x : Rect, intersects (⟨280, 100, 280, 320⟩ : Rect) x = false ∧
      intersects x ⟨280, 100, 280, 320⟩ = false) ∧
    (∀ x ∈ hits [⟨⟨0, 0, 5, 5⟩, true⟩, ⟨⟨280, 100, 280, 320⟩, true⟩,
        ⟨⟨4, 4, 9, 9⟩, true⟩] ⟨0, 0, 300, 300⟩, x.1 ≠ 1) ∧
    searchNonOverlappingDrawnRects
        (finalize [⟨⟨0, 0, 5, 5⟩, true⟩, ⟨⟨280, 100, 280, 320⟩, true⟩,
          ⟨⟨4, 4, 9, 9⟩, true⟩]) ⟨0, 0, 300, 300⟩ =
      searchNonOverlappingDrawnRects
        (finalize [⟨⟨0, 0, 5, 5⟩, true⟩, ⟨⟨4, 4, 9, 9⟩, true⟩]) ⟨0, 0, 300, 300⟩ :=
  C3_empty_rect_inert [⟨⟨0, 0, 5, 5⟩, true⟩] [⟨⟨4, 4, 9, 9⟩, true⟩]
    ⟨⟨280, 100, 280, 320⟩, true⟩ ⟨0, 0, 300, 300⟩ (by decide)

/-- C6: for every built hierarchy, every internal node's bounds equal the
exact union of its children's bounds, and the root bounds are the exact
union bounding box of all descendant leaf bounds; the structure is a pure
value, so no operation ever changes it. -/
theorem C6_bounds_union_invariant (rs : List Record) (t : RNode)
    (h : (finalize rs).root = some t) :
    allOk t = true ∧
    (∀ p ∈ leavesOf t, covers (nbounds t) p.2.bounds) ∧
    (∀ s : Rect, (∀ p ∈ leavesOf t, covers s p.2.bounds) → covers s (nbounds t)) := by
  cases rs with
  | nil => exact Option.noConfusion h
  | cons r rs' =>
      have h' : some (buildTree (0, r) (numbered 1 rs')) = some t := h
      injection h' with ht
      refine ⟨?_, ?_, ?_⟩
      · rw [← ht]; exact allOk_buildTree _ _
      · rw [← ht]; exact covers_nbounds_of_mem_leaves _ (allOk_buildTree _ _)
      · rw [← ht]
        intro s hs
        exact nbounds_least _ (allOk_buildTree _ _) s hs

/-- Witness for C6: a two-record index whose root is an internal node. -/
theorem C6_bounds_union_invariant_witness :
    allOk (RNode.node (joinRect ⟨0, 0, 1, 1⟩ ⟨0, 0, 1, 1⟩)
        (.leaf 0 ⟨⟨0, 0, 1, 1⟩, true⟩) (.leaf 1 ⟨⟨0, 0, 1, 1⟩, true⟩)) = true ∧
    (∀ p ∈ leavesOf (RNode.node (joinRect ⟨0, 0, 1, 1⟩ ⟨0, 0, 1, 1⟩)
        (.leaf 0 ⟨⟨0, 0, 1, 1⟩, true⟩) (.leaf 1 ⟨⟨0, 0, 1, 1⟩, true⟩)),
      covers (nbounds (RNode.node (joinRect ⟨0, 0, 1, 1⟩ ⟨0, 0, 1, 1⟩)
        (.leaf 0 ⟨⟨0, 0, 1, 1⟩, true⟩) (.leaf 1 ⟨⟨0, 0, 1, 1⟩, true⟩)))
        p.2.bounds) ∧
    (∀ s : Rect,
      (∀ p ∈ leavesOf (RNode.node (joinRect ⟨0, 0, 1, 1⟩ ⟨0, 0, 1, 1⟩)
          (.leaf 0 ⟨⟨0, 0, 1, 1⟩, true⟩) (.leaf 1 ⟨⟨0, 0, 1, 1⟩, true⟩)),
        covers s p.2.bounds) →
      covers s (nbounds (RNode.node (joinRect ⟨0, 0, 1, 1⟩ ⟨0, 0, 1, 1⟩)
        (.leaf 0 ⟨⟨0, 0, 1, 1⟩, true⟩) (.leaf 1 ⟨⟨0, 0, 1, 1⟩, true⟩)))) :=
  C6_bounds_union_invariant
    [⟨⟨0, 0, 1, 1⟩, true⟩, ⟨⟨0, 0, 1, 1⟩, true⟩] _ (by
      show some (buildTree (0, ⟨⟨0, 0, 1, 1⟩, true⟩) [(1, ⟨⟨0, 0, 1, 1⟩, true⟩)]) =
        some _
      rw [buildTree_cons (0, ⟨⟨0, 0, 1, 1⟩, true⟩) (1, ⟨⟨0, 0, 1, 1⟩, true⟩) []
        (1, ⟨⟨0, 0, 1, 1⟩, true⟩) [] rfl]
      simp [buildTree_nil, nbounds])

/-- C5: the merge computes connected components transitively over the
original per-record rectangles only: an overlap chain x–y, y–z merges into
one component even when x and z do not overlap directly; every member of a
component is reachable from its seed by chains of original-rectangle
overlaps; and a record overlapping only the grown union box of a component,
but no original member, stays separate (L-shape instance). -/
theorem C5_merge_over_original_rects (x y z : Hit)
    (hxy : intersects x.2 y.2 = true) (hyz : intersects y.2 z.2 = true)
    (hxz : intersects x.2 z.2 = false) :
    mergeHits [x, y, z] = [joinRect (joinRect x.2 y.2) z.2] ∧
    (∀ hs : List Hit, ∀ pc ∈ mergeParts hs, ∀ w ∈ pc.1 :: pc.2,
      linksTo (pc.1 :: pc.2) pc.1 w) ∧
    mergeHits [(0, (⟨0, 0, 1, 3⟩ : Rect)), (1, ⟨0, 0, 3, 1⟩), (2, ⟨2, 2, 3, 3⟩)] =
      [⟨0, 0, 3, 3⟩, ⟨2, 2, 3, 3⟩] := by
  refine ⟨?_, fun hs => mergeParts_linked hs, ?_⟩
  · have e1 : extract x [] [y, z] 2 = ([y, z], []) := by
      simp [extract, touches, hxy, hyz, hxz]
    rw [mergeHits, mergeParts]
    rw [show ([y, z] : List Hit).length = 2 from rfl, e1, mergeParts]
    rfl
  · have hab : intersects (⟨0, 0, 1, 3⟩ : Rect) ⟨0, 0, 3, 1⟩ = true := by decide
    have hac : intersects (⟨0, 0, 1, 3⟩ : Rect) ⟨2, 2, 3, 3⟩ = false := by decide
    have hbc : intersects (⟨0, 0, 3, 1⟩ : Rect) ⟨2, 2, 3, 3⟩ = false := by decide
    have e1 : extract (0, (⟨0, 0, 1, 3⟩ : Rect)) []
        [(1, ⟨0, 0, 3, 1⟩), (2, ⟨2, 2, 3, 3⟩)] 2 =
        ([(1, ⟨0, 0, 3, 1⟩)], [(2, ⟨2, 2, 3, 3⟩)]) := by
      simp [extract, touches, hab, hac, hbc]
    rw [mergeHits, mergeParts]
    rw [show ([(1, (⟨0, 0, 3, 1⟩ : Rect)), (2, ⟨2, 2, 3, 3⟩)] : List Hit).length = 2
      from rfl, e1, mergeParts]
    rw [show extract (2, (⟨2, 2, 3, 3⟩ : Rect)) [] ([] : List Hit)
      (List.length ([] : List Hit)) = ([], []) from rfl, mergeParts]
    show [compBox ((0, (⟨0, 0, 1, 3⟩ : Rect)), [(1, ⟨0, 0, 3, 1⟩)]),
      compBox ((2, (⟨2, 2, 3, 3⟩ : Rect)), [])] = _
    rw [show compBox ((0, (⟨0, 0, 1, 3⟩ : Rect)), [(1, ⟨0, 0, 3, 1⟩)]) =
      (⟨0, 0, 3, 3⟩ : Rect) from by decide]
    rfl

/-- Witness for C5 on the JoinRectsWhenIntersectedCase3 chain: record A
(100, 100, 200, 200) overlaps D (50, 50, 620, 250), D overlaps C
(500, 100, 600, 300), while A and C do not overlap. -/
theorem C5_merge_over_original_rects_witness :
    mergeHits [(0, (⟨100, 100, 200, 200⟩ : Rect)), (1, ⟨50, 50, 620, 250⟩),
        (2, ⟨500, 100, 600, 300⟩)] =
      [joinRect (joinRect ⟨100, 100, 200, 200⟩ ⟨50, 50, 620, 250⟩)
        ⟨500, 100, 600, 300⟩] ∧
    (∀ hs : List Hit, ∀ pc ∈ mergeParts hs, ∀ w ∈ pc.1 :: pc.2,
      linksTo (pc.1 :: pc.2) pc.1 w) ∧
    mergeHits [(0, (⟨0, 0, 1, 3⟩ : Rect)), (1, ⟨0, 0, 3, 1⟩), (2, ⟨2, 2, 3, 3⟩)] =
      [⟨0, 0, 3, 3⟩, ⟨2, 2, 3, 3⟩] :=
  C5_merge_over_original_rects (0, ⟨100, 100, 200, 200⟩) (1, ⟨50, 50, 620, 250⟩)
    (2, ⟨500, 100, 600, 300⟩) (by decide) (by decide) (by decide)

/-- C1: for every built index and query, the search output is exactly one
rectangle per connected component of the drawn hit set — the hit set is
partitioned into components, each internally connected by chains of
original-rectangle overlaps and mutually non-overlapping across components;
each output rectangle is the exact (least) union bounding box of its
component's member bounds; components are ordered by the smallest `order`
among their members (the seed carries it); and in particular two drawn
records that do not overlap each other but both intersect the query yield
exactly their two bounds in ascending append order. -/
theorem C1_components (rs : List Record) (q A B Q : Rect)
    (hAB : intersects A B = false) (hQA : intersects Q A = true)
    (hQB : intersects Q B = true) :
    (∃ parts : List (Hit × List Hit),
      searchNonOverlappingDrawnRects (finalize rs) q = parts.map compBox ∧
      (flatParts parts).Perm (hits rs q) ∧
      (∀ pc ∈ parts, ∀ w ∈ pc.1 :: pc.2, linksTo (pc.1 :: pc.2) pc.1 w) ∧
      List.Pairwise
        (fun pc pc' : Hit × List Hit =>
          ∀ w ∈ pc.1 :: pc.2, ∀ v ∈ pc'.1 :: pc'.2, intersects w.2 v.2 = false)
        parts ∧
      (∀ pc ∈ parts, (∀ w ∈ pc.1 :: pc.2, covers (compBox pc) w.2) ∧
        ∀ s : Rect, (∀ w ∈ pc.1 :: pc.2, covers s w.2) → covers s (compBox pc)) ∧
      (∀ pc ∈ parts, ∀ w ∈ pc.2, pc.1.1 < w.1) ∧
      List.Pairwise (fun pc pc' : Hit × List Hit => pc.1.1 < pc'.1.1) parts) ∧
    searchNonOverlappingDrawnRects (finalize [⟨A, true⟩, ⟨B, true⟩]) Q = [A, B] := by
  constructor
  · refine ⟨mergeParts (hits rs q), ?_, mergeParts_flat_perm _, mergeParts_linked _,
      mergeParts_sep _, ?_, mergeParts_seed_min _ (hitsFrom_sorted q rs 0),
      mergeParts_seeds_sorted _ (hitsFrom_sorted q rs 0)⟩
    · rw [search_eq_mergeHits]; rfl
    · intro pc hpc
      constructor
      · intro w hw
        rcases List.mem_cons.mp hw with rfl | hw
        · exact compBox_covers_seed _ _
        · exact compBox_covers_mem _ _ w.2 (List.mem_map_of_mem Prod.snd hw)
      · intro s hs
        refine compBox_least _ _ s (hs pc.1 (List.mem_cons_self _ _)) ?_
        intro b hb
        obtain ⟨u, hu, rfl⟩ := List.mem_map.mp hb
        exact hs u (List.mem_cons_of_mem _ hu)
  · rw [search_eq_mergeHits]
    have hh : hits [⟨A, true⟩, ⟨B, true⟩] Q = [(0, A), (1, B)] := by
      simp [hits, hitsFrom, hQA, hQB]
    rw [hh]
    have e1 : extract (0, A) [] [(1, B)] 1 = ([], [(1, B)]) := by
      simp [extract, touches, hAB]
    rw [mergeHits, mergeParts]
    rw [show ([(1, B)] : List Hit).length = 1 from rfl, e1, mergeParts]
    rw [show extract (1, B) [] ([] : List Hit) (List.length ([] : List Hit)) =
      ([], []) from rfl, mergeParts]
    rfl

/-- Witness for C1 on the MultipleRectIntersection unit-test data: records
A (100, 100, 200, 200) and B (300, 100, 400, 200), which do not overlap,
both intersecting the query (0, 0, 1000, 1050), with an empty index and the
unit query for the universally quantified part. -/
theorem C1_components_witness :
    (∃ parts : List (Hit × List Hit),
      searchNonOverlappingDrawnRects (finalize []) (⟨0, 0, 1, 1⟩ : Rect) =
        parts.map compBox ∧
      (flatParts parts).Perm (hits [] ⟨0, 0, 1, 1⟩) ∧
      (∀ pc ∈ parts, ∀ w ∈ pc.1 :: pc.2, linksTo (pc.1 :: pc.2) pc.1 w) ∧
      List.Pairwise
        (fun pc pc' : Hit × List Hit =>
          ∀ w ∈ pc.1 :: pc.2, ∀ v ∈ pc'.1 :: pc'.2, intersects w.2 v.2 = false)
        parts ∧
      (∀ pc ∈ parts, (∀ w ∈ pc.1 :: pc.2, covers (compBox pc) w.2) ∧
        ∀ s : Rect, (∀ w ∈ pc.1 :: pc.2, covers s w.2) → covers s (compBox pc)) ∧
      (∀ pc ∈ parts, ∀ w ∈ pc.2, pc.1.1 < w.1) ∧
      List.Pairwise (fun pc pc' : Hit × List Hit => pc.1.1 < pc'.1.1) parts) ∧
    searchNonOverlappingDrawnRects
        (finalize [⟨⟨100, 100, 200, 200⟩, true⟩, ⟨⟨300, 100, 400, 200⟩, true⟩])
        ⟨0, 0, 1000, 1050⟩ =
      [⟨100, 100, 200, 200⟩, ⟨300, 100, 400, 200⟩] :=
  C1_components [] ⟨0, 0, 1, 1⟩ ⟨100, 100, 200, 200⟩ ⟨300, 100, 400, 200⟩
    ⟨0, 0, 1000, 1050⟩ (by decide) (by decide) (by decide)

end Flutter
